import Mathlib

/-!
Verification of the rag-translator core against its specification.

Strings are modelled as `List Char` (`Str`).  Go's byte-oriented string
operations act here on characters; every pattern the code matches is pure
ASCII, so ASCII matches begin and end on character boundaries and the
character-level model is faithful.  Go maps are modelled as association
lists in insertion order; wherever a result could depend on Go's
unspecified map-iteration order this is noted at the definition.
-/

namespace RagT

set_option maxRecDepth 4096

/-- Character strings, the model of Go `string` values. -/
abbrev Str := List Char

/-! ## internal/textutil: Han detection, SHA-256 hashing, truncation -/

/-- Character ranges of the Unicode Han script, mirroring Go's
`unicode.Han` range table (BMP and supplementary ranges). -/
def hanRanges : List (Nat × Nat) :=
  [(0x2E80, 0x2E99), (0x2E9B, 0x2EF3), (0x2F00, 0x2FD5), (0x3005, 0x3005),
   (0x3007, 0x3007), (0x3021, 0x3029), (0x3038, 0x303B), (0x3400, 0x4DBF),
   (0x4E00, 0x9FFF), (0xF900, 0xFA6D), (0xFA70, 0xFAD9),
   (0x20000, 0x2A6DF), (0x2A700, 0x2B739), (0x2B740, 0x2B81D),
   (0x2B820, 0x2CEA1), (0x2CEB0, 0x2EBE0), (0x2F800, 0x2FA1D),
   (0x30000, 0x3134A)]

/-- Decides `unicode.Is(unicode.Han, r)` for a character. -/
def isHan (c : Char) : Bool :=
  hanRanges.any (fun r => decide (r.1 ≤ c.toNat) && decide (c.toNat ≤ r.2))

/-- Model of `textutil.ContainsChinese`: some character is Han. -/
def containsChinese (s : Str) : Bool :=
  s.any isHan

/-- UTF-8 encoding of one character, the bytes Go's `[]byte(s)` holds. -/
def utf8Bytes (c : Char) : List Nat :=
  let n := c.toNat
  if n < 0x80 then [n]
  else if n < 0x800 then
    [0xC0 ||| (n >>> 6), 0x80 ||| (n &&& 0x3F)]
  else if n < 0x10000 then
    [0xE0 ||| (n >>> 12), 0x80 ||| ((n >>> 6) &&& 0x3F), 0x80 ||| (n &&& 0x3F)]
  else
    [0xF0 ||| (n >>> 18), 0x80 ||| ((n >>> 12) &&& 0x3F),
     0x80 ||| ((n >>> 6) &&& 0x3F), 0x80 ||| (n &&& 0x3F)]

/-- UTF-8 encoding of a whole string. -/
def utf8Encode (s : Str) : List Nat :=
  s.flatMap utf8Bytes

/-! SHA-256, as computed by Go's `crypto/sha256`, over byte lists.
32-bit words are `Nat` values kept below `2 ^ 32`. -/

/-- Truncation to a 32-bit word. -/
def w32 (n : Nat) : Nat := n % 4294967296

/-- Right rotation of a 32-bit word. -/
def rotr (k n : Nat) : Nat := w32 ((n >>> k) ||| (n <<< (32 - k)))

/-- SHA-256 round constants (FIPS 180-4 §4.2.2, written in decimal). -/
def shaK : List Nat :=
  [1116352408, 1899447441, 3049323471, 3921009573, 961987163,
   1508970993, 2453635748, 2870763221, 3624381080, 310598401,
   607225278, 1426881987, 1925078388, 2162078206, 2614888103,
   3248222580, 3835390401, 4022224774, 264347078, 604807628,
   770255983, 1249150122, 1555081692, 1996064986, 2554220882,
   2821834349, 2952996808, 3210313671, 3336571891, 3584528711,
   113926993, 338241895, 666307205, 773529912, 1294757372,
   1396182291, 1695183700, 1986661051, 2177026350, 2456956037,
   2730485921, 2820302411, 3259730800, 3345764771, 3516065817,
   3600352804, 4094571909, 275423344, 430227734, 506948616,
   659060556, 883997877, 958139571, 1322822218, 1537002063,
   1747873779, 1955562222, 2024104815, 2227730452, 2361852424,
   2428436474, 2756734187, 3204031479, 3329325298]

/-- SHA-256 initial hash state (FIPS 180-4 §5.3.3, written in decimal). -/
def shaH0 : List Nat :=
  [1779033703, 3144134277, 1013904242, 2773480762,
   1359893119, 2600822924, 528734635, 1541459225]

/-- Big-endian byte rendering of `n` on `k` bytes. -/
def beBytes (k n : Nat) : List Nat :=
  (List.range k).map (fun i => (n >>> (8 * (k - 1 - i))) &&& 0xFF)

/-- SHA-256 message padding. -/
def shaPad (msg : List Nat) : List Nat :=
  let padLen := (64 + 56 - ((msg.length + 1) % 64)) % 64
  msg ++ 0x80 :: List.replicate padLen 0 ++ beBytes 8 (msg.length * 8)

/-- Split a padded message into 64-byte blocks; the fuel starts at the
message length, which every 64-byte step stays below. -/
def shaBlocksFuel : Nat → List Nat → List (List Nat)
  | 0, _ => []
  | _, [] => []
  | fuel + 1, b :: bs => (b :: bs.take 63) :: shaBlocksFuel fuel (bs.drop 63)

/-- Split a padded message into 64-byte blocks. -/
def shaBlocks (l : List Nat) : List (List Nat) :=
  shaBlocksFuel l.length l

/-- Sixteen big-endian 32-bit words of one block. -/
def blockWords (block : List Nat) : List Nat :=
  (List.range 16).map (fun i =>
    (block.getD (4 * i) 0) <<< 24 ||| (block.getD (4 * i + 1) 0) <<< 16 |||
    (block.getD (4 * i + 2) 0) <<< 8 ||| block.getD (4 * i + 3) 0)

/-- Extension of the 16-word schedule to 64 words. -/
def extendWords (w : List Nat) : Nat → List Nat
  | 0 => w
  | n + 1 =>
    let i := w.length
    let s0 := (rotr 7 (w.getD (i - 15) 0)) ^^^ (rotr 18 (w.getD (i - 15) 0)) ^^^
      ((w.getD (i - 15) 0) >>> 3)
    let s1 := (rotr 17 (w.getD (i - 2) 0)) ^^^ (rotr 19 (w.getD (i - 2) 0)) ^^^
      ((w.getD (i - 2) 0) >>> 10)
    extendWords (w ++ [w32 ((w.getD (i - 16) 0) + s0 + (w.getD (i - 7) 0) + s1)]) n

/-- One SHA-256 compression round. -/
def shaRound (st : List Nat) (kw : Nat × Nat) : List Nat :=
  match st with
  | [a, b, c, d, e, f, g, h] =>
    let s1 := (rotr 6 e) ^^^ (rotr 11 e) ^^^ (rotr 25 e)
    let ch := (e &&& f) ^^^ ((0xFFFFFFFF ^^^ e) &&& g)
    let t1 := w32 (h + s1 + ch + kw.1 + kw.2)
    let s0 := (rotr 2 a) ^^^ (rotr 13 a) ^^^ (rotr 22 a)
    let mj := (a &&& b) ^^^ (a &&& c) ^^^ (b &&& c)
    let t2 := w32 (s0 + mj)
    [w32 (t1 + t2), a, b, c, w32 (d + t1), e, f, g]
  | other => other

/-- Compression of one block into the running hash state. -/
def shaCompress (hs : List Nat) (block : List Nat) : List Nat :=
  let w := extendWords (blockWords block) 48
  let st := (shaK.zip w).foldl shaRound hs
  (hs.zip st).map (fun p => w32 (p.1 + p.2))

/-- Lowercase hex digit for a value below 16. -/
def hexDigit (n : Nat) : Char :=
  if n < 10 then Char.ofNat (48 + n) else Char.ofNat (87 + n)

/-- Lowercase hex rendering of one byte. -/
def hexByte (n : Nat) : List Char :=
  [hexDigit (n >>> 4), hexDigit (n &&& 0xF)]

/-- SHA-256 digest of a byte list, rendered as lowercase hex. -/
def sha256Hex (msg : List Nat) : Str :=
  ((shaBlocks (shaPad msg)).foldl shaCompress shaH0).flatMap
    (fun word => (beBytes 4 word).flatMap hexByte)

/-- Model of `textutil.Hash`: SHA-256 hex digest of the UTF-8 bytes. -/
def goHash (s : Str) : Str :=
  sha256Hex (utf8Encode s)

/-! ## Go string helpers shared by several components -/

/-- Characters `unicode.IsSpace` accepts (Go's white-space set). -/
def isGoSpace (c : Char) : Bool :=
  c = '\t' || c = '\n' || c = Char.ofNat 0x0B || c = Char.ofNat 0x0C ||
  c = '\r' || c = ' ' || c = Char.ofNat 0x85 || c = Char.ofNat 0xA0 ||
  c = Char.ofNat 0x1680 || (0x2000 ≤ c.toNat && c.toNat ≤ 0x200A) ||
  c = Char.ofNat 0x2028 || c = Char.ofNat 0x2029 || c = Char.ofNat 0x202F ||
  c = Char.ofNat 0x205F || c = Char.ofNat 0x3000

/-- Model of `strings.TrimSpace`. -/
def goTrimSpace (s : Str) : Str :=
  ((s.dropWhile isGoSpace).reverse.dropWhile isGoSpace).reverse

/-- Model of `strings.Split(s, sep)` for a one-character separator. -/
def goSplit (sep : Char) : Str → List Str
  | [] => [[]]
  | c :: rest =>
    match goSplit sep rest with
    | [] => [[c]]
    | s :: ss => if c = sep then [] :: s :: ss else (c :: s) :: ss

/-- Model of `strings.Join(parts, "\n") + "\n"`, the reconstructors' output. -/
def joinNL (lines : List Str) : Str :=
  (List.intercalate ['\n'] lines) ++ ['\n']

/-- Model of `strings.Count(s, "\t")`. -/
def countTab (s : Str) : Nat :=
  s.countP (fun c => c = '\t')

/-! ## internal/worker: Batch -/

/-- Chunking loop of `worker.Batch`: each step takes `items[i:end]` with
`end - i = b` (clamped to the remaining length) and advances `i` by `b`.
The head is split off so the recursion is visibly decreasing; for `b ≥ 1`
the produced chunk is exactly `(x :: xs).take b` and the rest is
`(x :: xs).drop b`. -/
def batchChunks (b : Nat) : List α → List (List α)
  | [] => []
  | x :: xs => (x :: xs.take (b - 1)) :: batchChunks b (xs.drop (b - 1))
termination_by l => l.length
decreasing_by simp [List.length_cons]; omega

/-- Model of `worker.Batch`: a non-positive `batchSize` is clamped to 1,
then the items are cut into consecutive chunks. -/
def Batch (items : List α) (batchSize : Int) : List (List α) :=
  let b : Nat := if batchSize ≤ 0 then 1 else batchSize.toNat
  batchChunks b items

/-! ## internal/parser: data model -/

/-- Model of `parser.ExtractedText`.  `context` is the Go string map,
kept as an association list. -/
structure ExtractedText where
  text : Str
  file : Str
  line : Nat
  column : Int
  context : List (Str × Str)
deriving DecidableEq, Repr

/-- Model of `parser.ParseResult`. -/
structure ParseResult where
  filePath : Str
  fileType : Str
  texts : List ExtractedText
  rawLines : List Str
deriving DecidableEq, Repr

/-- Translation maps `map[string]string` are association lists; the empty
map is `[]`.  Lookup models Go's `translations[key]` two-value read. -/
def mapGet (m : List (Str × Str)) (k : Str) : Option Str :=
  m.lookup k

/-! ## internal/parser/txt.go: detectTSV -/

/-- Accumulating step of `detectTSV`'s sampling loop: blank lines are
skipped, non-blank lines are counted, and positive tab counts are tallied
into the `tabCounts` map (an association list `tabCount ↦ lines`). -/
def bumpCount (m : List (Nat × Nat)) (k : Nat) : List (Nat × Nat) :=
  match m with
  | [] => [(k, 1)]
  | p :: rest => if p.1 = k then (p.1, p.2 + 1) :: rest else p :: bumpCount rest k

/-- One sampled line of `detectTSV`. -/
def detectStep (acc : List (Nat × Nat) × Nat) (line : Str) : List (Nat × Nat) × Nat :=
  if goTrimSpace line = [] then acc
  else
    let count := countTab line
    (if count > 0 then bumpCount acc.1 count else acc.1, acc.2 + 1)

/-- Model of `detectTSV`.  The final `> 0.6` comparison is Go `float64`
division of two small naturals; it is modelled exactly over `ℚ` (both
sides are exactly representable for the magnitudes that arise). -/
def detectTSV (lines : List Str) : Bool :=
  if lines.length < 2 then false
  else
    let sampleSize := min lines.length 20
    let acc := (lines.take sampleSize).foldl detectStep ([], 0)
    let nonEmptyLines := acc.2
    if nonEmptyLines = 0 then false
    else
      let maxCount : Nat := acc.1.foldl (fun m p => if p.2 > m then p.2 else m) 0
      decide ((maxCount : ℚ) / (nonEmptyLines : ℚ) > 6 / 10)

/-! ## internal/parser/txt.go: parseTSV and isTranslatableColumn -/

/-- Model of `isTranslatableColumn`. -/
def isTranslatableColumn (col : Str) : Bool :=
  if col = [] || !containsChinese col then false
  else if !col.any (fun r => r.toNat > 127) then false
  else decide (col.length ≥ 2)

/-- Column loop of `parseTSV` for one row: `cols` is the full split row
(for `cols[0]`), `colIdx` the index of the first column of `rest`. -/
def parseTSVCols (filePath : Str) (lineNum : Nat) (cols : List Str) :
    Nat → List Str → List ExtractedText
  | _, [] => []
  | colIdx, col :: rest =>
    (if isTranslatableColumn col then
      let ctx := [("file".data, filePath), ("format".data, "tsv".data)] ++
        (if cols.length > 0 && colIdx > 0 then [("id".data, cols.headI)] else [])
      [⟨col, filePath, lineNum + 1, (colIdx : Int), ctx⟩]
    else []) ++ parseTSVCols filePath lineNum cols (colIdx + 1) rest

/-- Line loop of `parseTSV`: `lineNum` is the 0-based index of the first
line of the remaining list. -/
def parseTSVLines (filePath : Str) : Nat → List Str → List ExtractedText
  | _, [] => []
  | lineNum, line :: rest =>
    (if goTrimSpace line = [] then []
     else parseTSVCols filePath lineNum (goSplit '\t' line) 0 (goSplit '\t' line)) ++
    parseTSVLines filePath (lineNum + 1) rest

/-- Model of `TXTParser.parseTSV`: the texts appended to the result. -/
def parseTSV (filePath : Str) (rawLines : List Str) : List ExtractedText :=
  parseTSVLines filePath 0 rawLines

/-! ## Reconstructors (txt.go, the Lua part of txt.go, and the INI file) -/

/-- Model of `strings.Replace(s, old, new, 1)`: replace the first
occurrence of `old`, or return `s` unchanged when `old` does not occur. -/
def replaceOnce (old new : Str) : Str → Str
  | [] => if old.isPrefixOf ([] : Str) then new ++ ([] : Str).drop old.length else []
  | c :: rest =>
    if old.isPrefixOf (c :: rest) then new ++ (c :: rest).drop old.length
    else c :: replaceOnce old new rest

/-- One extracted text of `TXTParser.reconstructTSV`: guard the 1-based
line, look the source text up, and rejoin the tab-split columns with the
translated column substituted when its index is in range. -/
def reconstructTSVStep (translations : List (Str × Str)) (lines : List Str)
    (et : ExtractedText) : List Str :=
  let idx : Int := (et.line : Int) - 1
  if idx < 0 || idx ≥ (lines.length : Int) then lines
  else
    match mapGet translations et.text with
    | none => lines
    | some translated =>
      let cols := goSplit '\t' (lines.getD idx.toNat [])
      let cols' :=
        if et.column ≥ 0 && et.column < (cols.length : Int) then
          cols.set et.column.toNat translated
        else cols
      lines.set idx.toNat (List.intercalate ['\t'] cols')

/-- One extracted text of `TXTParser.reconstructPlainText`: replace the
first occurrence of the trimmed source inside the original line. -/
def reconstructPlainStep (translations : List (Str × Str)) (lines : List Str)
    (et : ExtractedText) : List Str :=
  let idx : Int := (et.line : Int) - 1
  if idx < 0 || idx ≥ (lines.length : Int) then lines
  else
    match mapGet translations et.text with
    | none => lines
    | some translated =>
      let original := lines.getD idx.toNat []
      lines.set idx.toNat (replaceOnce (goTrimSpace original) translated original)

/-- Model of `TXTParser.Reconstruct` (the error result is always nil in
the source, so the byte output is returned directly). -/
def txtReconstruct (result : ParseResult) (translations : List (Str × Str)) : Str :=
  if result.fileType = "tsv".data then
    joinNL (result.texts.foldl (reconstructTSVStep translations) result.rawLines)
  else
    joinNL (result.texts.foldl (reconstructPlainStep translations) result.rawLines)

/-- One extracted text of `INIParser.Reconstruct`: keep everything up to
and including `=` plus the leading spaces of the value, then append the
translation. -/
def reconstructINIStep (translations : List (Str × Str)) (lines : List Str)
    (et : ExtractedText) : List Str :=
  let idx : Int := (et.line : Int) - 1
  if idx < 0 || idx ≥ (lines.length : Int) then lines
  else
    match mapGet translations et.text with
    | none => lines
    | some translated =>
      let line := lines.getD idx.toNat []
      match line.findIdx? (fun c => c = '=') with
      | none => lines
      | some eqIdx =>
        let afterEq := line.drop (eqIdx + 1)
        let leadingSpaces := afterEq.takeWhile (fun ch => ch = ' ' || ch = '\t')
        lines.set idx.toNat (line.take (eqIdx + 1) ++ leadingSpaces ++ translated)

/-- Model of `INIParser.Reconstruct`. -/
def iniReconstruct (result : ParseResult) (translations : List (Str × Str)) : Str :=
  joinNL (result.texts.foldl (reconstructINIStep translations) result.rawLines)

/-- Grouping step of `LuaParser.Reconstruct`: append the extracted text to
its line's bucket, creating the bucket on first use. -/
def luaGroupAdd (m : List (Nat × List ExtractedText)) (et : ExtractedText) :
    List (Nat × List ExtractedText) :=
  match m with
  | [] => [(et.line, [et])]
  | p :: rest =>
    if p.1 = et.line then (p.1, p.2 ++ [et]) :: rest else p :: luaGroupAdd rest et

/-- Per-line replacement pass of `LuaParser.Reconstruct`.  Go iterates the
`lineReplacements` map in unspecified order; buckets are processed here in
first-insertion order (the choice cannot affect other lines, since each
bucket touches only its own line). -/
def luaLineApply (translations : List (Str × Str)) (lines : List Str)
    (g : Nat × List ExtractedText) : List Str :=
  let idx : Int := (g.1 : Int) - 1
  if idx < 0 || idx ≥ (lines.length : Int) then lines
  else
    let line := g.2.foldl (fun l et =>
      match mapGet translations et.text with
      | some translated => replaceOnce et.text translated l
      | none => l) (lines.getD idx.toNat [])
    lines.set idx.toNat line

/-- Model of `LuaParser.Reconstruct`. -/
def luaReconstruct (result : ParseResult) (translations : List (Str × Str)) : Str :=
  joinNL ((result.texts.foldl luaGroupAdd []).foldl (luaLineApply translations) result.rawLines)

/-! ## internal/seed: diff mining -/

/-- Model of `seed.SeedEntry`. -/
structure SeedEntry where
  sourceText : Str
  translatedText : Str
  file : Str
  functionName : Str
  entityType : Str
  hash : Str
deriving DecidableEq, Repr

/-- Model of `seed.diffHunk`. -/
structure DiffHunk where
  removed : List Str
  added : List Str
deriving DecidableEq, Repr

/-- Quoted-literal content scan shared by both quote kinds of
`luaStringRe`: consume `[^q\\]` characters and `\\.`-escape pairs until
the closing quote; fail (no match at this opening quote) if the line ends
first.  `.` never meets a newline here because diff and source lines are
newline-free. -/
def qContentFuel (q : Char) : Nat → Str → Option Str
  | 0, _ => none
  | _, [] => none
  | fuel + 1, c :: rest =>
    if c = q then some []
    else if c = '\\' then
      match rest with
      | [] => none
      | d :: rest' => (qContentFuel q fuel rest').map (fun tail => '\\' :: d :: tail)
    else (qContentFuel q fuel rest).map (fun tail => c :: tail)

/-- Entry point of the quoted-content scan; the fuel (one unit per
consumed character) starts at the string length and never runs out. -/
def qContent (q : Char) (s : Str) : Option Str :=
  qContentFuel q s.length s

/-- Leftmost match of `luaStringRe` with its two capture groups: a
double-quoted literal fills the first group, a single-quoted literal the
second, and an absent group is the empty string (as in Go's
`FindStringSubmatch`). -/
def findQuoted : Str → Option (Str × Str)
  | [] => none
  | c :: rest =>
    if c = '"' then
      match qContent '"' rest with
      | some content => some (content, [])
      | none => findQuoted rest
    else if c = '\'' then
      match qContent '\'' rest with
      | some content => some ([], content)
      | none => findQuoted rest
    else findQuoted rest

/-- First character class of `luaFuncExtractor`'s capture group. -/
def identStart (c : Char) : Bool := c.isAlpha || c = '_'

/-- Continuation class `[a-zA-Z0-9_.:]` of the capture group. -/
def identBody (c : Char) : Bool := c.isAlphanum || c = '_' || c = '.' || c = ':'

/-- Leftmost match of `luaFuncExtractor` (`([a-zA-Z_][a-zA-Z0-9_.:]*)s*\(`):
at each position an identifier run is matched greedily and must be
followed by `(` — the stray `s*` in the source pattern matches only
characters the greedy run has already consumed, so it never alters the
match. -/
def findFuncName : Str → Option Str
  | [] => none
  | c :: rest =>
    if identStart c then
      let run := rest.takeWhile identBody
      match rest.drop run.length with
      | '(' :: _ => some (c :: run)
      | _ => findFuncName rest
    else findFuncName rest

/-- Model of `extractLuaPair`. -/
def extractLuaPair (source translated : Str) : Str × Str × Str :=
  match findQuoted source, findQuoted translated with
  | some srcM, some dstM =>
    let srcText := if srcM.1 ≠ [] then srcM.1 else srcM.2
    let dstText := if dstM.1 ≠ [] then dstM.1 else dstM.2
    let fnName := (findFuncName source).getD []
    (srcText, dstText, fnName)
  | _, _ => ([], [], [])

/-- Model of `strings.SplitN(s, "=", 2)`, as the key/value pair when the
separator occurs. -/
def splitN2Eq (s : Str) : Option (Str × Str) :=
  match s.findIdx? (fun c => c = '=') with
  | none => none
  | some i => some (s.take i, s.drop (i + 1))

/-- Model of `extractINIPair`. -/
def extractINIPair (source translated : Str) : Str × Str × Str :=
  match splitN2Eq source, splitN2Eq translated with
  | some (sk, sv), some (dk, dv) =>
    if goTrimSpace sk ≠ goTrimSpace dk then ([], [], [])
    else (goTrimSpace sv, goTrimSpace dv, [])
  | _, _ => ([], [], [])

/-- Column scan of `extractTXTPair`: the first column whose two sides
differ and whose source side contains a Han character. -/
def firstDiffChinese : List Str → List Str → Str × Str × Str
  | s :: ss, d :: ds =>
    if s ≠ d && containsChinese s then (s, d, []) else firstDiffChinese ss ds
  | _, _ => ([], [], [])

/-- Model of `extractTXTPair`. -/
def extractTXTPair (source translated : Str) : Str × Str × Str :=
  let srcCols := goSplit '\t' source
  let dstCols := goSplit '\t' translated
  if srcCols.length ≠ dstCols.length || srcCols.length < 2 then ([], [], [])
  else firstDiffChinese srcCols dstCols

/-- Model of `extractTextPair`. -/
def extractTextPair (source translated ext : Str) : Str × Str × Str :=
  if ext = ".lua".data then extractLuaPair source translated
  else if ext = ".ini".data then extractINIPair source translated
  else if ext = ".txt".data then extractTXTPair source translated
  else (goTrimSpace source, goTrimSpace translated, [])

/-- The `entityPatterns` table in its source-literal order.  In Go this is
a map, so its iteration order is unspecified and varies between runs. -/
def entityPatterns : List (Str × Str) :=
  [("skill".data, "skill".data), ("buff".data, "buff".data),
   ("item".data, "item".data), ("equip".data, "item".data),
   ("weapon".data, "item".data), ("quest".data, "quest".data),
   ("npc".data, "character".data), ("char".data, "character".data),
   ("map".data, "location".data), ("scene".data, "location".data),
   ("ui".data, "ui".data), ("dialog".data, "dialog".data),
   ("chat".data, "dialog".data), ("faction".data, "faction".data),
   ("guild".data, "faction".data), ("mount".data, "mount".data),
   ("pet".data, "pet".data)]

/-- The `termEntityMap` table in its source-literal order (also a Go map;
its iteration order is likewise unspecified). -/
def termEntityMap : List (Str × Str) :=
  [("技能".data, "skill".data), ("武功".data, "skill".data),
   ("心法".data, "skill".data), ("装备".data, "item".data),
   ("丹药".data, "item".data), ("秘籍".data, "item".data),
   ("副本".data, "dungeon".data), ("任务".data, "quest".data),
   ("门派".data, "faction".data), ("帮派".data, "faction".data),
   ("坐骑".data, "mount".data)]

/-- Substring scan underlying the model of `strings.Contains`. -/
def containsSub (sub : Str) : Str → Bool
  | [] => sub.isEmpty
  | c :: rest => sub.isPrefixOf (c :: rest) || containsSub sub rest

/-- Model of `strings.Contains`. -/
def goContains (s sub : Str) : Bool :=
  containsSub sub s

/-- Model of `strings.ToLower`, restricted to ASCII case mapping (every
table key is ASCII, so this is the part that can affect a match). -/
def goToLower (s : Str) : Str :=
  s.map Char.toLower

/-- Model of `detectEntityType`, parameterised by the iteration order of
the `entityPatterns` map: Go's `for pattern, entityType := range` visits
the keys in an order that is unspecified and may differ between two
invocations, so the order is an explicit argument.  The second table is
scanned in source order here (its order can matter too, but the claims
only exercise the first table). -/
def detectEntityTypeOrdered (patOrder : List (Str × Str))
    (file functionName text : Str) : Str :=
  let fileLower := goToLower file
  let funcLower := goToLower functionName
  match patOrder.find? (fun p => goContains fileLower p.1 || goContains funcLower p.1) with
  | some p => p.2
  | none =>
    match termEntityMap.find? (fun p => goContains text p.1) with
    | some p => p.2
    | none => "general".data

/-- The detector with one fixed iteration order (the source-literal one);
any permutation of `entityPatterns` is an equally valid run. -/
def detectEntityType (file functionName text : Str) : Str :=
  detectEntityTypeOrdered entityPatterns file functionName text

/-- Pairing loop of `matchPairs`: the i-th removed line meets the i-th
added line until either side runs out (`pairCount = min`), and a pair is
emitted only when both extracted texts are non-empty and the source side
contains a Han character. -/
def matchPairsLoop (ext file : Str) : List Str → List Str → List SeedEntry
  | r :: rs, a :: adds =>
    (let p := extractTextPair r a ext
     if p.1 = [] || p.2.1 = [] || !containsChinese p.1 then []
     else [⟨p.1, p.2.1, file, p.2.2,
            detectEntityType file p.2.2 p.1, goHash p.1⟩]) ++
    matchPairsLoop ext file rs adds
  | _, _ => []

/-- Model of `matchPairs`. -/
def matchPairs (hunk : DiffHunk) (ext file : Str) : List SeedEntry :=
  matchPairsLoop ext file hunk.removed hunk.added

/-- The per-pair body of `matchPairs` as a single step, used to state that
the pairing is positional. -/
def mkSeedEntry (ext file : Str) (pair : Str × Str) : Option SeedEntry :=
  let p := extractTextPair pair.1 pair.2 ext
  if p.1 = [] || p.2.1 = [] || !containsChinese p.1 then none
  else some ⟨p.1, p.2.1, file, p.2.2, detectEntityType file p.2.2 p.1, goHash p.1⟩

/-! ## Translation cache (the cache file of the repository) -/

/-- Model of the two cache tiers: the in-memory `hash ↦ translated` map
and the PostgreSQL `translation_cache` rows `(hash, source, translated)`. -/
structure CacheState where
  memory : List (Str × Str)
  durable : List (Str × Str × Str)
deriving DecidableEq, Repr

/-- Go map assignment `m[k] = v` on an association list. -/
def mapSet (m : List (Str × Str)) (k v : Str) : List (Str × Str) :=
  match m with
  | [] => [(k, v)]
  | p :: rest => if p.1 = k then (k, v) :: rest else p :: mapSet rest k v

/-- Model of `GetCachedTranslation`: the durable row for a hash, `none`
standing for both "no row" and a query error (either makes Go's `Get`
return not-found). -/
def durableGet (db : List (Str × Str × Str)) (hash : Str) : Option Str :=
  (db.find? (fun r => r.1 = hash)).map (fun r => r.2.2)

/-- Model of `UpsertCachedTranslation`. -/
def durableUpsert (db : List (Str × Str × Str)) (hash source translated : Str) :
    List (Str × Str × Str) :=
  match db with
  | [] => [(hash, source, translated)]
  | r :: rest =>
    if r.1 = hash then (hash, source, translated) :: rest
    else r :: durableUpsert rest hash source translated

/-- Model of `TranslationCache.Get`.  Returns the Go pair
`(translated, found)`, the state after the call, and whether the durable
tier was queried. -/
def cacheGet (st : CacheState) (sourceText : Str) :
    (Str × Bool) × CacheState × Bool :=
  let hash := goHash sourceText
  match mapGet st.memory hash with
  | some v => ((v, true), st, false)
  | none =>
    match durableGet st.durable hash with
    | none => (([], false), st, true)
    | some translated => ((translated, true), ⟨mapSet st.memory hash translated, st.durable⟩, true)

/-- Model of `TranslationCache.Set`.  `dbOk` is whether the durable upsert
succeeds; the in-memory write happens first either way.  Returns the new
state and whether an error is reported. -/
def cacheSet (st : CacheState) (sourceText translated : Str) (dbOk : Bool) :
    CacheState × Bool :=
  let hash := goHash sourceText
  let mem := mapSet st.memory hash translated
  if dbOk then (⟨mem, durableUpsert st.durable hash sourceText translated⟩, false)
  else (⟨mem, st.durable⟩, true)

/-! ## Translator client (the Anthropic client file of the repository) -/

/-- Abstract decoded response body: whether `json.Unmarshal` succeeds, the
optional `error` object, and the `content` blocks as `(type, text)`. -/
structure ApiBody where
  parseOk : Bool
  errorField : Option (Str × Str)
  content : List (Str × Str)
deriving DecidableEq, Repr

/-- Outcome of one HTTP round-trip, as `doRequest` observes it. -/
inductive HttpOutcome where
  | netErr
  | resp (status : Nat) (body : ApiBody)
deriving DecidableEq, Repr

/-- The distinct error exits of `doRequest` and `Translate`. -/
inductive TransErr where
  | apiCall
  | retryableStatus (code : Nat)
  | apiStatus (code : Nat)
  | unmarshal
  | apiErrorField (t msg : Str)
  | emptyContent
  | ctxCanceled
  | afterRetries (last : Option TransErr)
deriving Repr

/-- Text assembly of `doRequest`: concatenate the `text` content blocks. -/
def joinTextBlocks (content : List (Str × Str)) : Str :=
  content.foldl (fun acc c => if c.1 = "text".data then acc ++ c.2 else acc) []

/-- Model of `OpusClient.doRequest` from the HTTP outcome on: 429 and 5xx
map to the "retryable error" exit, any other non-200 to the "API error"
exit, then unmarshal, the error field, and empty content are checked, and
the joined text is returned trimmed. -/
def doRequest : HttpOutcome → Except TransErr Str
  | .netErr => .error .apiCall
  | .resp status body =>
    if status = 429 || status ≥ 500 then .error (.retryableStatus status)
    else if status ≠ 200 then .error (.apiStatus status)
    else if !body.parseOk then .error .unmarshal
    else
      match body.errorField with
      | some e => .error (.apiErrorField e.1 e.2)
      | none =>
        if body.content = [] then .error .emptyContent
        else .ok (goTrimSpace (joinTextBlocks body.content))

/-- Result of `Translate`: the returned value, how many requests were
issued, and the backoff waits (in seconds) that were performed. -/
structure TransResult where
  result : Except TransErr Str
  attempts : Nat
  backoffs : List Nat
deriving Repr

/-- Retry loop of `OpusClient.Translate`.  `env i` is the HTTP outcome of
the i-th request; `ctxDone t` is whether the context is observed cancelled
at observation instant `t` (instant `2k` is the backoff select before
attempt `k`, instant `2k+1` the check after a failed attempt `k`).
`remaining` counts the loop iterations left out of `maxRetries = 3`. -/
def translateRetryLoop (ctxDone : Nat → Bool) (env : Nat → HttpOutcome) :
    Nat → Nat → Option TransErr → List Nat → TransResult
  | attempt, 0, lastErr, waits => ⟨.error (.afterRetries lastErr), attempt, waits⟩
  | attempt, r + 1, _lastErr, waits =>
    if 0 < attempt && ctxDone (2 * attempt) then ⟨.error .ctxCanceled, attempt, waits⟩
    else
      let waits' := if 0 < attempt then waits ++ [2 * attempt] else waits
      match doRequest (env attempt) with
      | .ok s => ⟨.ok s, attempt + 1, waits'⟩
      | .error e =>
        if ctxDone (2 * attempt + 1) then ⟨.error .ctxCanceled, attempt + 1, waits'⟩
        else translateRetryLoop ctxDone env (attempt + 1) r (some e) waits'

/-- Model of `OpusClient.Translate` after the request body is marshalled
(marshalling a plain string request cannot fail). -/
def translateGo (ctxDone : Nat → Bool) (env : Nat → HttpOutcome) : TransResult :=
  translateRetryLoop ctxDone env 0 3 none []

/-! ## internal/interpolation: Protect and Restore

Match positions are character indices into the text; every recognised
token is pure ASCII, so character indices and Go's byte indices cut the
text at the same places. -/

/-- Model of `interpolation.Mapping`. -/
structure Mapping where
  original : Str
  placeholder : Str
  index : Nat
deriving DecidableEq, Repr

/-- Model of `interpolation.varMatch`; Go's `end` field is `stop` here
(`end` is a Lean keyword). -/
structure VarMatch where
  start : Nat
  stop : Nat
  value : Str
deriving DecidableEq, Repr

/-- The `\x7b\x7bvar_N\x7d\x7d` placeholder `fmt.Sprintf` produces. -/
def phStr (n : Nat) : Str :=
  '\x7b' :: '\x7b' :: 'v' :: 'a' :: 'r' :: '_' :: ((Nat.repr n).data ++ ['\x7d', '\x7d'])

/-- The literal `\x7b\x7bvar_` that the round-trip property excludes. -/
def varOpen : Str :=
  ['\x7b', '\x7b', 'v', 'a', 'r', '_']

/-- Substring `s[a:b]` as Go slices it. -/
def slice (s : Str) (a b : Nat) : Str :=
  (s.take b).drop a

/-- Identifier-run class `[a-zA-Z0-9_]` of the `${...}` pattern. -/
def dollarBody (c : Char) : Bool := c.isAlphanum || c = '_'

/-- Match attempt of `\$\{[a-zA-Z_][a-zA-Z0-9_]*\}` at the head of the
string: the identifier run is greedy and unambiguous because `\x7d` is
outside the run's class.  Returns the match length. -/
def probeDollar : Str → Option Nat
  | '$' :: '\x7b' :: c :: cs =>
    if identStart c then
      match cs.drop (cs.takeWhile dollarBody).length with
      | '\x7d' :: _ => some (4 + (cs.takeWhile dollarBody).length)
      | _ => none
    else none
  | _ => none

/-- Match attempt of `\{[0-9]+\}` at the head of the string. -/
def probeBraceNum : Str → Option Nat
  | '\x7b' :: cs =>
    if cs.takeWhile Char.isDigit = [] then none
    else
      match cs.drop (cs.takeWhile Char.isDigit).length with
      | '\x7d' :: _ => some (2 + (cs.takeWhile Char.isDigit).length)
      | _ => none
  | _ => none

/-- Class `[-+0-9]` of the format-specifier pattern. -/
def fmtFlag (c : Char) : Bool := c = '-' || c = '+' || c.isDigit

/-- Class `[dsfieEgGxXoubcpq]` of the format-specifier pattern. -/
def fmtVerb (c : Char) : Bool := "dsfieEgGxXoubcpq".data.contains c

/-- Match attempt of `%[-+0-9]*\.?[0-9]*[dsfieEgGxXoubcpq]` at the head
of the string.  The verb class is disjoint from the flag and digit
classes and from `.`, so the greedy scan below finds a match exactly when
the backtracking regex engine does, and with the same extent. -/
def probePercent : Str → Option Nat
  | '%' :: cs =>
    match cs.drop (cs.takeWhile fmtFlag).length with
    | '.' :: cs2 =>
      (match cs2.drop (cs2.takeWhile Char.isDigit).length with
       | v :: _ =>
         if fmtVerb v then
           some (3 + (cs.takeWhile fmtFlag).length + (cs2.takeWhile Char.isDigit).length)
         else none
       | [] => none)
    | v :: _ => if fmtVerb v then some (2 + (cs.takeWhile fmtFlag).length) else none
    | [] => none
  | _ => none

/-- Match attempt of `%%` at the head of the string. -/
def probePercentPercent : Str → Option Nat
  | '%' :: '%' :: _ => some 2
  | _ => none

/-- The scan loop of `FindAllStringIndex`: at each position try the
pattern; on a match emit `[p, p+len)` and continue right after it, else
advance one character.  `fuel` starts at the string length (every match
is non-empty, so it never runs out first). -/
def findAllLoop (probe : Str → Option Nat) : Str → Nat → Nat → List (Nat × Nat)
  | _, _, 0 => []
  | s, p, fuel + 1 =>
    match s with
    | [] => []
    | _ :: rest =>
      match probe s with
      | some len => (p, p + len) :: findAllLoop probe (s.drop len) (p + len) fuel
      | none => findAllLoop probe rest (p + 1) fuel

/-- Model of `p.FindAllStringIndex(text, -1)`. -/
def findAllMatches (probe : Str → Option Nat) (s : Str) : List (Nat × Nat) :=
  findAllLoop probe s 0 s.length

/-- The match-collection loop of `Protect`: all four patterns' matches,
each carrying the matched slice of the text, in pattern order. -/
def allVarMatches (text : Str) : List VarMatch :=
  ((findAllMatches probeDollar text) ++ (findAllMatches probeBraceNum text) ++
   (findAllMatches probePercent text) ++ (findAllMatches probePercentPercent text)).map
    (fun loc => ⟨loc.1, loc.2, slice text loc.1 loc.2⟩)

/-- The shift condition of `sortVarMatches`: the scanned element moves
right when it starts later than the key, or ties on start with a shorter
extent. -/
def vmGT (m key : VarMatch) : Bool :=
  m.start > key.start ||
    (m.start = key.start && (m.stop - m.start) < (key.stop - key.start))

/-- Insertion of one key into the sorted prefix; placing it from the left
before the first element the shift condition moves lands it exactly where
the source's right-to-left shifting does. -/
def insertVM (key : VarMatch) : List VarMatch → List VarMatch
  | [] => [key]
  | m :: rest => if vmGT m key then key :: m :: rest else m :: insertVM key rest

/-- Model of `sortVarMatches` (insertion sort by start position, ties by
length descending). -/
def sortVarMatches (ms : List VarMatch) : List VarMatch :=
  ms.foldl (fun acc key => insertVM key acc) []

/-- The overlap-removal pass of `Protect`: keep a match when it starts at
or after the previous kept match's end (`lastEnd` starts at −1). -/
def filterOverlaps : Int → List VarMatch → List VarMatch
  | _, [] => []
  | lastEnd, m :: rest =>
    if lastEnd ≤ (m.start : Int) then m :: filterOverlaps (m.stop : Int) rest
    else filterOverlaps lastEnd rest

/-- Pairing of the filtered matches with their 1-based indices `i+1`. -/
def enumFromIdx : Nat → List VarMatch → List (Nat × VarMatch)
  | _, [] => []
  | i, m :: rest => (i, m) :: enumFromIdx (i + 1) rest

/-- One splice `result[:m.start] + placeholder + result[m.end:]`. -/
def spliceMatch (r : Str) (im : Nat × VarMatch) : Str :=
  r.take im.2.start ++ phStr im.1 ++ r.drop im.2.stop

/-- The replacement loop of `Protect` runs over the filtered matches in
reverse index order (last match spliced first); folding from the right
performs exactly those splices. -/
def protectSplice (text : Str) (enum : List (Nat × VarMatch)) : Str :=
  enum.foldr (fun im r => spliceMatch r im) text

/-- Model of `interpolation.Protect`. -/
def Protect (text : Str) : Str × List Mapping :=
  let allMatches := allVarMatches text
  if allMatches = [] then (text, [])
  else
    let filtered := filterOverlaps (-1) (sortVarMatches allMatches)
    let enum := enumFromIdx 1 filtered
    (protectSplice text enum, enum.map (fun im => ⟨im.2.value, phStr im.1, im.1⟩))

/-- Model of `interpolation.Restore`. -/
def Restore (translated : Str) (mappings : List Mapping) : Str :=
  mappings.foldl (fun result m => replaceOnce m.placeholder m.original result) translated

/-- The segment form of `Protect`'s output: the text up to the next match
start, the placeholder, and recursively the rest from the match end. -/
def interleaveFrom (text : Str) : Nat → List (Nat × VarMatch) → Str
  | pos, [] => text.drop pos
  | pos, im :: rest =>
    ((text.take im.2.start).drop pos) ++ phStr im.1 ++ interleaveFrom text im.2.stop rest

/-- Well-formedness the filtered matches enjoy: every match is an
in-bounds non-inverted interval carrying its own slice of the text, and
consecutive matches do not overlap. -/
def MatchesOK (text : Str) (l : List (Nat × VarMatch)) : Prop :=
  (∀ im ∈ l, im.2.start ≤ im.2.stop ∧ im.2.stop ≤ text.length ∧
    im.2.value = slice text im.2.start im.2.stop) ∧
  List.Chain' (fun a b => a.2.stop ≤ b.2.start) l

/-- The `entityPatterns` table under a second, equally legal iteration
order of the Go map: identical pairs, with the `npc` and `map` entries
visited in the opposite relative order. -/
def entityPatternsSwapped : List (Str × Str) :=
  [("skill".data, "skill".data), ("buff".data, "buff".data),
   ("item".data, "item".data), ("equip".data, "item".data),
   ("weapon".data, "item".data), ("quest".data, "quest".data),
   ("map".data, "location".data), ("char".data, "character".data),
   ("npc".data, "character".data), ("scene".data, "location".data),
   ("ui".data, "ui".data), ("dialog".data, "dialog".data),
   ("chat".data, "dialog".data), ("faction".data, "faction".data),
   ("guild".data, "faction".data), ("mount".data, "mount".data),
   ("pet".data, "pet".data)]

/-! ## General helper lemmas -/

theorem foldl_const {f : α → β → α} (h : ∀ a b, f a b = a) :
    ∀ (l : List β) (a : α), l.foldl f a = a := by
  intro l
  induction l with
  | nil => intro a; rfl
  | cons b bs ih => intro a; simp [List.foldl_cons, h a b, ih a]

theorem set_getD_self (l : List α) : ∀ (i : Nat) (d : α), l.set i (l.getD i d) = l := by
  induction l with
  | nil => intro i d; rfl
  | cons x xs ih =>
    intro i d
    cases i with
    | zero => simp [List.getD]
    | succ j =>
      have : (x :: xs).getD (j + 1) d = xs.getD j d := by simp [List.getD]
      rw [this, List.set_cons_succ, ih j d]

theorem mapGet_mapSet_self (k v : Str) : ∀ (m : List (Str × Str)), mapGet (mapSet m k v) k = some v := by
  intro m
  induction m with
  | nil => simp [mapSet, mapGet, List.lookup]
  | cons p rest ih =>
    by_cases hk : p.1 = k
    · simp [mapSet, hk, mapGet, List.lookup]
    · obtain ⟨a, b⟩ := p
      simp only at hk
      have hba : (k == a) = false := beq_eq_false_iff_ne.mpr (Ne.symm hk)
      simp only [mapSet, hk, if_false]
      simpa [mapGet, List.lookup, hba] using ih

/-! ## C9: worker.Batch chunking -/

theorem batchChunks_join {α : Type} (b : Nat) :
    ∀ (n : Nat) (l : List α), l.length ≤ n → (batchChunks b l).flatten = l := by
  intro n
  induction n with
  | zero =>
    intro l hl
    have : l = [] := List.length_eq_zero.mp (Nat.le_zero.mp hl)
    subst this
    simp [batchChunks]
  | succ n ih =>
    intro l hl
    cases l with
    | nil => simp [batchChunks]
    | cons x xs =>
      have hd : (xs.drop (b - 1)).length ≤ n := by
        simp only [List.length_drop]
        simp only [List.length_cons] at hl
        omega
      simp only [batchChunks, List.flatten_cons]
      rw [ih (xs.drop (b - 1)) hd, List.cons_append, List.take_append_drop]

theorem batchChunks_mem {α : Type} (b : Nat) (hb : 1 ≤ b) :
    ∀ (n : Nat) (l : List α), l.length ≤ n →
      ∀ c ∈ batchChunks b l, c.length ≤ b ∧ c ≠ [] := by
  intro n
  induction n with
  | zero =>
    intro l hl c hc
    have : l = [] := List.length_eq_zero.mp (Nat.le_zero.mp hl)
    subst this
    simp [batchChunks] at hc
  | succ n ih =>
    intro l hl c hc
    cases l with
    | nil => simp [batchChunks] at hc
    | cons x xs =>
      simp only [batchChunks, List.mem_cons] at hc
      rcases hc with hc | hc
      · subst hc
        constructor
        · simp only [List.length_cons]
          have := List.length_take_le (b - 1) xs
          omega
        · simp
      · have hd : (xs.drop (b - 1)).length ≤ n := by
          simp only [List.length_drop]
          simp only [List.length_cons] at hl
          omega
        exact ih (xs.drop (b - 1)) hd c hc

theorem batchChunks_ne_nil {α : Type} (b : Nat) (l : List α) (hl : l ≠ []) :
    batchChunks b l ≠ [] := by
  cases l with
  | nil => exact absurd rfl hl
  | cons x xs => simp [batchChunks]

theorem batchChunks_dropLast {α : Type} (b : Nat) (hb : 1 ≤ b) :
    ∀ (n : Nat) (l : List α), l.length ≤ n →
      ∀ c ∈ (batchChunks b l).dropLast, c.length = b := by
  intro n
  induction n with
  | zero =>
    intro l hl c hc
    have : l = [] := List.length_eq_zero.mp (Nat.le_zero.mp hl)
    subst this
    simp [batchChunks] at hc
  | succ n ih =>
    intro l hl c hc
    cases l with
    | nil => simp [batchChunks] at hc
    | cons x xs =>
      simp only [batchChunks] at hc
      by_cases hrest : xs.drop (b - 1) = []
      · rw [hrest] at hc
        simp [batchChunks] at hc
      · have hne := batchChunks_ne_nil b (xs.drop (b - 1)) hrest
        rw [List.dropLast_cons_of_ne_nil hne] at hc
        simp only [List.mem_cons] at hc
        have hd : (xs.drop (b - 1)).length ≤ n := by
          simp only [List.length_drop]
          simp only [List.length_cons] at hl
          omega
        rcases hc with hc | hc
        · subst hc
          have hlen : b - 1 < xs.length := by
            by_contra hge
            exact hrest (List.drop_eq_nil_of_le (by omega))
          simp only [List.length_cons, List.length_take]
          omega
        · exact ih (xs.drop (b - 1)) hd c hc

/-- C9: for every list and every size ≥ 1, `Batch` splits the items into
consecutive non-overlapping chunks whose concatenation is the input,
every chunk has at most `size` elements, and every chunk but possibly the
last has exactly `size` elements. -/
theorem c9_batch_spec {α : Type} (items : List α) (size : Int) (hsz : 1 ≤ size) :
    (Batch items size).flatten = items ∧
    (∀ c ∈ Batch items size, (c.length : Int) ≤ size ∧ c ≠ []) ∧
    (∀ c ∈ (Batch items size).dropLast, (c.length : Int) = size) := by
  have hpos : ¬ size ≤ 0 := by omega
  have hb : 1 ≤ size.toNat := by omega
  have hcast : (size.toNat : Int) = size := Int.toNat_of_nonneg (by omega)
  unfold Batch
  simp only [hpos, if_false]
  refine ⟨batchChunks_join size.toNat items.length items le_rfl, ?_, ?_⟩
  · intro c hc
    have h := batchChunks_mem size.toNat hb items.length items le_rfl c hc
    exact ⟨by rw [← hcast]; exact_mod_cast h.1, h.2⟩
  · intro c hc
    have h := batchChunks_dropLast size.toNat hb items.length items le_rfl c hc
    rw [← hcast]
    exact_mod_cast h

/-- Witness for C9 at a concrete input. -/
theorem c9_batch_spec_witness :
    (1 : Int) ≤ 2 ∧ (Batch [0, 1, 2, 3, 4] (2 : Int)).flatten = [0, 1, 2, 3, 4] :=
  ⟨by decide, (c9_batch_spec [0, 1, 2, 3, 4] 2 (by decide)).1⟩

/-! ## C2: reconstruction under the empty translation map -/

theorem mapGet_nil (k : Str) : mapGet ([] : List (Str × Str)) k = none := rfl

theorem reconstructTSVStep_empty (lines : List Str) (et : ExtractedText) :
    reconstructTSVStep [] lines et = lines := by
  unfold reconstructTSVStep
  dsimp only
  rw [mapGet_nil]
  split <;> rfl

theorem reconstructPlainStep_empty (lines : List Str) (et : ExtractedText) :
    reconstructPlainStep [] lines et = lines := by
  unfold reconstructPlainStep
  dsimp only
  rw [mapGet_nil]
  split <;> rfl

theorem reconstructINIStep_empty (lines : List Str) (et : ExtractedText) :
    reconstructINIStep [] lines et = lines := by
  unfold reconstructINIStep
  dsimp only
  rw [mapGet_nil]
  split <;> rfl

theorem luaLineApply_empty (lines : List Str) (g : Nat × List ExtractedText) :
    luaLineApply [] lines g = lines := by
  unfold luaLineApply
  dsimp only
  split
  · rfl
  · rw [foldl_const (fun a b => by rw [mapGet_nil]), set_getD_self]

/-- C2: with the empty translation map every reconstructor returns the
raw lines joined by LF with one trailing LF — the normalized input with
every non-translated byte preserved. -/
theorem c2_reconstruct_empty_map (pr : ParseResult) :
    txtReconstruct pr [] = joinNL pr.rawLines ∧
    iniReconstruct pr [] = joinNL pr.rawLines ∧
    luaReconstruct pr [] = joinNL pr.rawLines := by
  refine ⟨?_, ?_, ?_⟩
  · unfold txtReconstruct
    by_cases h : pr.fileType = "tsv".data
    · simp only [h, if_true]
      rw [foldl_const reconstructTSVStep_empty]
    · simp only [h, if_false]
      rw [foldl_const reconstructPlainStep_empty]
  · unfold iniReconstruct
    rw [foldl_const reconstructINIStep_empty]
  · unfold luaReconstruct
    rw [foldl_const luaLineApply_empty]

/-! ## C8 and C10: the two-tier translation cache -/

/-- C8: the cache reads its own writes — after a successful `Set` a `Get`
on the same source returns the new translation; `Get` consults the
in-memory tier first (returning without touching the durable tier on a
memory hit) and falls back to the durable tier only on a memory miss,
populating memory on a durable hit. -/
theorem c8_cache_read_own_writes :
    (∀ (st : CacheState) (s t : Str), ((cacheGet (cacheSet st s t true).1 s).1 = (t, true))) ∧
    (∀ (st : CacheState) (s v : Str), mapGet st.memory (goHash s) = some v →
      cacheGet st s = ((v, true), st, false)) ∧
    (∀ (st : CacheState) (s v : Str), mapGet st.memory (goHash s) = none →
      durableGet st.durable (goHash s) = some v →
      cacheGet st s = ((v, true), ⟨mapSet st.memory (goHash s) v, st.durable⟩, true)) := by
  refine ⟨?_, ?_, ?_⟩
  · intro st s t
    unfold cacheSet cacheGet
    simp [mapGet_mapSet_self]
  · intro st s v h
    unfold cacheGet
    dsimp only
    rw [h]
  · intro st s v hmem hdur
    unfold cacheGet
    dsimp only
    rw [hmem, hdur]

/-- Witness for C8 at concrete states. -/
theorem c8_cache_read_own_writes_witness :
    ((cacheGet (cacheSet ⟨[], []⟩ "你".data "bạn".data true).1 "你".data).1 =
      ("bạn".data, true)) ∧
    (cacheGet ⟨[(goHash "你".data, "bạn".data)], []⟩ "你".data =
      (("bạn".data, true), ⟨[(goHash "你".data, "bạn".data)], []⟩, false)) ∧
    (cacheGet ⟨[], [(goHash "你".data, "你".data, "bạn".data)]⟩ "你".data =
      (("bạn".data, true),
        ⟨mapSet [] (goHash "你".data) "bạn".data, [(goHash "你".data, "你".data, "bạn".data)]⟩, true)) :=
  ⟨c8_cache_read_own_writes.1 ⟨[], []⟩ "你".data "bạn".data,
   c8_cache_read_own_writes.2.1 ⟨[(goHash "你".data, "bạn".data)], []⟩ "你".data "bạn".data
     (by simp [mapGet, List.lookup]),
   c8_cache_read_own_writes.2.2 ⟨[], [(goHash "你".data, "你".data, "bạn".data)]⟩ "你".data "bạn".data
     (by simp [mapGet, List.lookup])
     (by simp [durableGet, List.find?])⟩

/-! ## C4: entity-type inference order dependence -/

/-- C4: `detectEntityType` is not deterministic — its result depends on
the iteration order of the `entityPatterns` Go map, which is unspecified
and varies between invocations.  For the file name `npc_map.lua` (with no
function name and empty text), the source-literal order returns
`character` while another legal order of the same map returns `location`;
the claim's alphabetical rule would fix `map` (→ `location`) as the
winner, which the code does not implement. -/
theorem c4_entity_type_order_dependent :
    detectEntityTypeOrdered entityPatterns "npc_map.lua".data [] [] = "character".data ∧
    detectEntityTypeOrdered entityPatternsSwapped "npc_map.lua".data [] [] = "location".data ∧
    entityPatterns.Perm entityPatternsSwapped := by
  refine ⟨by decide, by decide, by decide⟩

/-! ## C6: seed invariants of the diff-mining pairing step -/

theorem matchPairsLoop_eq_zip (ext file : Str) :
    ∀ (rs adds : List Str),
      matchPairsLoop ext file rs adds = (rs.zip adds).filterMap (mkSeedEntry ext file) := by
  intro rs
  induction rs with
  | nil => intro adds; rfl
  | cons r rest ih =>
    intro adds
    cases adds with
    | nil => rfl
    | cons a arest =>
      simp only [matchPairsLoop, List.zip_cons_cons, List.filterMap_cons, mkSeedEntry]
      split
      · simp only [List.nil_append]
        exact ih arest
      · simp only [List.cons_append, List.nil_append]
        rw [ih arest]

theorem matchPairsLoop_mem (ext file : Str) :
    ∀ (rs adds : List Str), ∀ e ∈ matchPairsLoop ext file rs adds,
      e.sourceText ≠ [] ∧ e.translatedText ≠ [] ∧ containsChinese e.sourceText = true ∧
      e.hash = goHash e.sourceText := by
  intro rs
  induction rs with
  | nil => intro adds e he; simp [matchPairsLoop] at he
  | cons r rest ih =>
    intro adds e he
    cases adds with
    | nil => simp [matchPairsLoop] at he
    | cons a arest =>
      simp only [matchPairsLoop] at he
      rw [List.mem_append] at he
      rcases he with he | he
      · split at he
        · simp at he
        · rename_i hcond
          simp only [Bool.or_eq_true, not_or, decide_eq_true_eq, Bool.not_eq_true',
            Bool.not_eq_false] at hcond
          simp only [List.mem_singleton] at he
          subst he
          obtain ⟨⟨hs, ht⟩, hch⟩ := hcond
          exact ⟨hs, ht, hch, rfl⟩
      · exact ih arest e he

/-- C6: every seed the pairing step emits has a non-empty source text
containing at least one Han character, a non-empty target text, and a
hash equal to the SHA-256 hex digest of the source text; pairs are formed
positionally — the i-th removed line with the i-th added line, up to
`min(|removed|, |added|)` (the zip's length). -/
theorem c6_seed_invariants :
    (∀ (hunk : DiffHunk) (ext file : Str),
      matchPairs hunk ext file = (hunk.removed.zip hunk.added).filterMap (mkSeedEntry ext file)) ∧
    (∀ (hunk : DiffHunk) (ext file : Str), ∀ e ∈ matchPairs hunk ext file,
      e.sourceText ≠ [] ∧ e.translatedText ≠ [] ∧ containsChinese e.sourceText = true ∧
      e.hash = goHash e.sourceText) :=
  ⟨fun hunk ext file => matchPairsLoop_eq_zip ext file hunk.removed hunk.added,
   fun hunk ext file => matchPairsLoop_mem ext file hunk.removed hunk.added⟩

/-- Witness for C6 at a concrete INI hunk. -/
theorem c6_seed_invariants_witness :
    ("你好".data ≠ ([] : Str)) ∧ ("xin chao".data ≠ ([] : Str)) ∧
    containsChinese "你好".data = true ∧
    "670d9743542cae3ea7ebe36af56bd53648b0a1126162e78d81a32934a711302e".data =
      goHash "你好".data :=
  c6_seed_invariants.2 ⟨["x=你好".data], ["x=xin chao".data]⟩ ".ini".data "a.ini".data
    ⟨"你好".data, "xin chao".data, "a.ini".data, [], "general".data,
     "670d9743542cae3ea7ebe36af56bd53648b0a1126162e78d81a32934a711302e".data⟩
    (by decide)

/-! ## C7: the id context key in TSV parsing -/

theorem goSplit_ne_nil (sep : Char) : ∀ s : Str, goSplit sep s ≠ [] := by
  intro s
  cases s with
  | nil => simp [goSplit]
  | cons c rest =>
    simp only [goSplit]
    split
    · simp
    · split <;> simp

theorem parseTSVCols_mem (fp : Str) (ln : Nat) (cols : List Str) (hc : cols ≠ []) :
    ∀ (ci : Nat) (rest : List Str), ∀ et ∈ parseTSVCols fp ln cols ci rest,
      et.line = ln + 1 ∧ (∃ k : Nat, et.column = ((ci + k : Nat) : Int)) ∧
      (0 < et.column → mapGet et.context "id".data = some cols.headI) ∧
      (et.column = 0 → mapGet et.context "id".data = none) := by
  have hlen : cols.length > 0 := List.length_pos.mpr hc
  intro ci rest
  induction rest generalizing ci with
  | nil => intro et het; simp [parseTSVCols] at het
  | cons col crest ih =>
    intro et het
    simp only [parseTSVCols] at het
    rw [List.mem_append] at het
    rcases het with het | het
    · split at het
      · simp only [List.mem_singleton] at het
        subst het
        refine ⟨rfl, ⟨0, by simp⟩, ?_, ?_⟩
        · intro hpos
          simp only at hpos
          have hci : 0 < ci := by exact_mod_cast hpos
          have hcond : (decide (cols.length > 0) && decide (ci > 0)) = true := by
            simp [hlen, hci]
          simp only [hcond, if_true]
          simp [mapGet, List.lookup,
            show (("id".data : Str) == "file".data) = false from by decide,
            show (("id".data : Str) == "format".data) = false from by decide]
        · intro hz
          simp only at hz
          have hci : ci = 0 := by exact_mod_cast hz
          subst hci
          have hcond : (decide (cols.length > 0) && decide ((0 : Nat) > 0)) = false := by
            simp
          simp [hcond, mapGet, List.lookup,
            show (("id".data : Str) == "file".data) = false from by decide,
            show (("id".data : Str) == "format".data) = false from by decide]
      · simp at het
    · obtain ⟨hline, ⟨k, hcol⟩, hid⟩ := ih (ci + 1) et het
      exact ⟨hline, ⟨k + 1, by rw [hcol]; norm_num; omega⟩, hid⟩

theorem parseTSVLines_mem (fp : Str) :
    ∀ (ls : List Str) (k : Nat), ∀ et ∈ parseTSVLines fp k ls,
      ∃ j, j < ls.length ∧
        et ∈ parseTSVCols fp (k + j) (goSplit '\t' (ls.getD j [])) 0
          (goSplit '\t' (ls.getD j [])) := by
  intro ls
  induction ls with
  | nil => intro k et het; simp [parseTSVLines] at het
  | cons line rest ih =>
    intro k et het
    simp only [parseTSVLines] at het
    rw [List.mem_append] at het
    rcases het with het | het
    · split at het
      · simp at het
      · exact ⟨0, by simp, by simpa using het⟩
    · obtain ⟨j, hj, hmem⟩ := ih (k + 1) et het
      refine ⟨j + 1, by simpa using Nat.succ_lt_succ hj, ?_⟩
      have : k + 1 + j = k + (j + 1) := by omega
      rw [this] at hmem
      simpa using hmem

/-- C7 counterexample: in the row `你好\t世界` both columns are
translatable; the extracted text for column 0 carries NO `id` key (the
code only attaches `id` when the column index is positive), refuting the
claim that every translatable column — including column 0 itself —
carries `id`. -/
theorem c7_counterexample_column_zero :
    (parseTSV "f".data ["你好\t世界".data]).map
      (fun et => (et.column, mapGet et.context "id".data)) =
      [((0 : Int), none), (1, some "你好".data)] := by decide

/-- C7 (amended): in TSV parsing, every extracted translatable column at
a positive index carries a context `id` equal to its row's column 0,
while a translatable column at index 0 carries no `id` key. -/
theorem c7_tsv_id_context (fp : Str) (rawLines : List Str) :
    ∀ et ∈ parseTSV fp rawLines,
      (0 < et.column →
        mapGet et.context "id".data =
          some ((goSplit '\t' (rawLines.getD (et.line - 1) [])).headI)) ∧
      (et.column = 0 → mapGet et.context "id".data = none) := by
  intro et het
  obtain ⟨j, hj, hmem⟩ := parseTSVLines_mem fp rawLines 0 et het
  obtain ⟨hline, _, hid, hid0⟩ :=
    parseTSVCols_mem fp (0 + j) (goSplit '\t' (rawLines.getD j []))
      (goSplit_ne_nil '\t' _) 0 (goSplit '\t' (rawLines.getD j [])) et hmem
  have hj' : et.line - 1 = j := by omega
  rw [hj']
  exact ⟨hid, hid0⟩

/-- Witness for C7 (amended) at a concrete row. -/
theorem c7_tsv_id_context_witness :
    mapGet [("file".data, "f".data), ("format".data, "tsv".data), ("id".data, "你好".data)]
      "id".data =
      some ((goSplit '\t' ((["你好\t世界".data] : List Str).getD (1 - 1) [])).headI) :=
  (c7_tsv_id_context "f".data ["你好\t世界".data]
    ⟨"世界".data, "f".data, 1, 1,
      [("file".data, "f".data), ("format".data, "tsv".data), ("id".data, "你好".data)]⟩
    (by decide)).1 (by decide)

/-! ## C3: translator retry policy -/

/-- C3 counterexample: a plain HTTP 400 — which the claim calls terminal
("terminates immediately with an error, no further attempts") — is in
fact retried: with a 400 on the first attempt and a 200 on the second,
`Translate` issues a second request and returns its text successfully. -/
theorem c3_counterexample_400_retried :
    translateGo (fun _ => false)
      (fun n => if n = 0 then .resp 400 ⟨true, none, []⟩
                else .resp 200 ⟨true, none, [("text".data, "xin chao".data)]⟩) =
      ⟨.ok "xin chao".data, 2, [2]⟩ := rfl

/-- C3 (amended): `Translate` makes at most 3 attempts with backoff waits
of 0, 2 and 4 seconds before the 1st, 2nd and 3rd attempts, but (context
cancellation aside) it retries after EVERY failed attempt — timeouts,
429, 5xx, any other non-2xx status, and malformed or empty bodies alike —
and only success or attempt exhaustion stops it; after 3 failures it
returns an error wrapping the last attempt's error. -/
theorem c3_translate_retry_on_any_error (env : Nat → HttpOutcome) :
    ((translateGo (fun _ => false) env).attempts ≤ 3) ∧
    ((translateGo (fun _ => false) env).backoffs =
      (List.range ((translateGo (fun _ => false) env).attempts - 1)).map (fun i => 2 * (i + 1))) ∧
    (∀ s, doRequest (env 0) = .ok s →
      translateGo (fun _ => false) env = ⟨.ok s, 1, []⟩) ∧
    (∀ e s, doRequest (env 0) = .error e → doRequest (env 1) = .ok s →
      translateGo (fun _ => false) env = ⟨.ok s, 2, [2]⟩) ∧
    (∀ e e' s, doRequest (env 0) = .error e → doRequest (env 1) = .error e' →
      doRequest (env 2) = .ok s →
      translateGo (fun _ => false) env = ⟨.ok s, 3, [2, 4]⟩) ∧
    (∀ e e' e'', doRequest (env 0) = .error e → doRequest (env 1) = .error e' →
      doRequest (env 2) = .error e'' →
      translateGo (fun _ => false) env = ⟨.error (.afterRetries (some e'')), 3, [2, 4]⟩) := by
  have h1 : ∀ s, doRequest (env 0) = .ok s →
      translateGo (fun _ => false) env = ⟨.ok s, 1, []⟩ := by
    intro s h
    simp [translateGo, translateRetryLoop, h]
  have h2 : ∀ e s, doRequest (env 0) = .error e → doRequest (env 1) = .ok s →
      translateGo (fun _ => false) env = ⟨.ok s, 2, [2]⟩ := by
    intro e s h h'
    simp [translateGo, translateRetryLoop, h, h']
  have h3 : ∀ e e' s, doRequest (env 0) = .error e → doRequest (env 1) = .error e' →
      doRequest (env 2) = .ok s →
      translateGo (fun _ => false) env = ⟨.ok s, 3, [2, 4]⟩ := by
    intro e e' s h h' h''
    simp [translateGo, translateRetryLoop, h, h', h'']
  have h4 : ∀ e e' e'', doRequest (env 0) = .error e → doRequest (env 1) = .error e' →
      doRequest (env 2) = .error e'' →
      translateGo (fun _ => false) env = ⟨.error (.afterRetries (some e'')), 3, [2, 4]⟩ := by
    intro e e' e'' h h' h''
    simp [translateGo, translateRetryLoop, h, h', h'']
  have hshape : (translateGo (fun _ => false) env).attempts ≤ 3 ∧
      (translateGo (fun _ => false) env).backoffs =
        (List.range ((translateGo (fun _ => false) env).attempts - 1)).map (fun i => 2 * (i + 1)) := by
    rcases hd0 : doRequest (env 0) with e0 | s0
    · rcases hd1 : doRequest (env 1) with e1 | s1
      · rcases hd2 : doRequest (env 2) with e2 | s2
        · rw [h4 e0 e1 e2 hd0 hd1 hd2]; exact ⟨by norm_num, rfl⟩
        · rw [h3 e0 e1 s2 hd0 hd1 hd2]; exact ⟨by norm_num, rfl⟩
      · rw [h2 e0 s1 hd0 hd1]; exact ⟨by norm_num, rfl⟩
    · rw [h1 s0 hd0]; exact ⟨by norm_num, rfl⟩
  exact ⟨hshape.1, hshape.2, h1, h2, h3, h4⟩

/-- Witness for C3 (amended) at a concrete environment. -/
theorem c3_translate_retry_witness :
    translateGo (fun _ => false)
      (fun n => if n = 0 then .resp 400 ⟨true, none, []⟩
                else .resp 200 ⟨true, none, [("text".data, "xin chao".data)]⟩) =
      ⟨.ok "xin chao".data, 2, [2]⟩ :=
  (c3_translate_retry_on_any_error _).2.2.2.1 (.apiStatus 400) "xin chao".data rfl rfl

/-! ## C5: TSV auto-detection -/

/-- C5 counterexample: two non-empty lines each consisting of exactly one
tab have the same positive tab count, yet `detectTSV` returns `false`
(both lines are whitespace-only, so the sampling loop skips them and no
non-empty line is counted). -/
theorem c5_counterexample_tab_only_lines :
    detectTSV [['\t'], ['\t']] = false := rfl

/-- C5 (amended): for every 2-line input in which both lines contain a
non-whitespace character and the same positive number of tabs, `detectTSV`
returns `true`; and for every input in which no line contains a tab, it
returns `false`. -/
theorem c5_detect_tsv :
    (∀ l1 l2 : Str, goTrimSpace l1 ≠ [] → goTrimSpace l2 ≠ [] →
      countTab l2 = countTab l1 → 0 < countTab l1 → detectTSV [l1, l2] = true) ∧
    (∀ lines : List Str, (∀ l ∈ lines, countTab l = 0) → detectTSV lines = false) := by
  constructor
  · intro l1 l2 h1 h2 heq hpos
    have hstep1 : detectStep ([], 0) l1 = ([(countTab l1, 1)], 1) := by
      unfold detectStep
      rw [if_neg h1]
      dsimp only
      rw [if_pos hpos]
      rfl
    have hstep2 : detectStep ([(countTab l1, 1)], 1) l2 = ([(countTab l1, 2)], 2) := by
      unfold detectStep
      rw [if_neg h2]
      dsimp only
      rw [heq, if_pos hpos]
      simp [bumpCount]
    unfold detectTSV
    dsimp only
    norm_num [hstep1, hstep2]
  · intro lines hzero
    have hacc : ∀ (ls : List Str), (∀ l ∈ ls, countTab l = 0) → ∀ (n : Nat),
        (ls.foldl detectStep ([], n)).1 = [] := by
      intro ls
      induction ls with
      | nil => intro _ n; rfl
      | cons l rest ih =>
        intro hz n
        have hl := hz l (List.mem_cons_self l rest)
        have hrest := fun x hx => hz x (List.mem_cons_of_mem l hx)
        simp only [List.foldl_cons]
        have hstep : detectStep ([], n) l = ([], n) ∨ detectStep ([], n) l = ([], n + 1) := by
          unfold detectStep
          split
          · exact Or.inl rfl
          · rw [hl]
            simp
        rcases hstep with hs | hs
        · rw [hs]; exact ih hrest n
        · rw [hs]; exact ih hrest (n + 1)
    have hz' : ∀ l ∈ lines.take (min lines.length 20), countTab l = 0 :=
      fun l hl => hzero l (List.take_subset _ _ hl)
    unfold detectTSV
    dsimp only
    split
    · rfl
    · rw [hacc _ hz' 0]
      split
      · rfl
      · simp only [List.foldl_nil]
        rw [decide_eq_false_iff_not]
        rw [Nat.cast_zero, zero_div]
        norm_num

/-- Witness for C5 (amended) at concrete inputs. -/
theorem c5_detect_tsv_witness :
    detectTSV ["a\tb".data, "c\td".data] = true ∧ detectTSV ["ab".data, "cd".data] = false :=
  ⟨c5_detect_tsv.1 "a\tb".data "c\td".data (by decide) (by decide) (by decide) (by decide),
   c5_detect_tsv.2 ["ab".data, "cd".data] (by decide)⟩

/-- C10: when the durable write inside `Set` fails, `Set` reports an
error, the durable tier is unchanged, but the in-memory tier has already
been updated, so a subsequent `Get` in the same process returns the new
value. -/
theorem c10_set_error_memory_updated (st : CacheState) (s t : Str) :
    (cacheSet st s t false).2 = true ∧
    (cacheSet st s t false).1.durable = st.durable ∧
    ((cacheGet (cacheSet st s t false).1 s).1 = (t, true)) ∧
    ((cacheGet (cacheSet st s t false).1 s).2.2 = false) := by
  refine ⟨rfl, rfl, ?_, ?_⟩
  · unfold cacheSet cacheGet
    simp [mapGet_mapSet_self]
  · unfold cacheSet cacheGet
    simp [mapGet_mapSet_self]

/-! ## C1: the placeholder round-trip

The proof proceeds in stages: the four scanners only produce in-bounds
intervals; sorting and overlap-filtering yield a non-overlapping ordered
match list; the splice loop then produces the text interleaved with
placeholders; and restoring replaces each placeholder at its junction
because a text free of the literal `\x7b\x7bvar_` admits no earlier
occurrence. -/

theorem drop_cons_of_ne_nil {cs : Str} {n : Nat} {c : Char} {t : Str}
    (h : cs.drop n = c :: t) : n < cs.length := by
  by_contra hge
  rw [List.drop_eq_nil_of_le (by omega)] at h
  exact List.noConfusion h

theorem takeWhileLenLe (p : Char → Bool) : ∀ l : Str, (l.takeWhile p).length ≤ l.length := by
  intro l
  induction l with
  | nil => simp
  | cons c cs ih =>
    simp only [List.takeWhile_cons]
    split
    · simp only [List.length_cons]; omega
    · simp

theorem probeDollar_bound : ∀ (s : Str) (len : Nat), probeDollar s = some len → len ≤ s.length := by
  intro s len h
  rw [probeDollar.eq_def] at h
  split at h
  · rename_i c cs
    split at h
    · split at h
      · rename_i t heq
        have hlt : (cs.takeWhile dollarBody).length < cs.length := drop_cons_of_ne_nil heq
        simp only [Option.some.injEq] at h
        simp only [List.length_cons]
        omega
      · exact absurd h (by simp)
    · exact absurd h (by simp)
  · exact absurd h (by simp)

theorem probeBraceNum_bound : ∀ (s : Str) (len : Nat), probeBraceNum s = some len → len ≤ s.length := by
  intro s len h
  rw [probeBraceNum.eq_def] at h
  split at h
  · rename_i cs
    split at h
    · exact absurd h (by simp)
    · split at h
      · rename_i t heq
        have hlt : (cs.takeWhile Char.isDigit).length < cs.length := drop_cons_of_ne_nil heq
        simp only [Option.some.injEq] at h
        simp only [List.length_cons]
        omega
      · exact absurd h (by simp)
  · exact absurd h (by simp)

theorem probePercent_bound : ∀ (s : Str) (len : Nat), probePercent s = some len → len ≤ s.length := by
  intro s len h
  rw [probePercent.eq_def] at h
  split at h
  · rename_i cs
    split at h
    · rename_i cs2 heq
      have h1 : cs.length - (cs.takeWhile fmtFlag).length = cs2.length + 1 := by
        have := congrArg List.length heq
        simpa using this
      have h2 : (cs.takeWhile fmtFlag).length ≤ cs.length := takeWhileLenLe _ _
      split at h
      · rename_i v t heq2
        have hlt : (cs2.takeWhile Char.isDigit).length < cs2.length := drop_cons_of_ne_nil heq2
        split at h
        · simp only [Option.some.injEq] at h
          simp only [List.length_cons]
          omega
        · exact absurd h (by simp)
      · exact absurd h (by simp)
    · rename_i v t heq
      have hlt : (cs.takeWhile fmtFlag).length < cs.length := drop_cons_of_ne_nil heq
      split at h
      · simp only [Option.some.injEq] at h
        simp only [List.length_cons]
        omega
      · exact absurd h (by simp)
    · exact absurd h (by simp)
  · exact absurd h (by simp)

theorem probePercentPercent_bound :
    ∀ (s : Str) (len : Nat), probePercentPercent s = some len → len ≤ s.length := by
  intro s len h
  rw [probePercentPercent.eq_def] at h
  split at h
  · simp only [Option.some.injEq] at h
    simp only [List.length_cons]
    omega
  · exact absurd h (by simp)

theorem findAllLoop_bounds (probe : Str → Option Nat)
    (hp : ∀ s len, probe s = some len → len ≤ s.length) :
    ∀ (fuel : Nat) (s : Str) (p : Nat), ∀ ab ∈ findAllLoop probe s p fuel,
      ab.1 ≤ ab.2 ∧ ab.2 ≤ p + s.length := by
  intro fuel
  induction fuel with
  | zero => intro s p ab hab; simp [findAllLoop] at hab
  | succ n ih =>
    intro s p ab hab
    cases s with
    | nil => simp [findAllLoop] at hab
    | cons c rest =>
      simp only [findAllLoop] at hab
      cases hpr : probe (c :: rest) with
      | some len =>
        rw [hpr] at hab
        have hlen := hp _ _ hpr
        simp only [List.length_cons] at hlen
        rcases List.mem_cons.mp hab with hab | hab
        · subst hab
          constructor
          · omega
          · simp only [List.length_cons]; omega
        · have := ih _ _ ab hab
          simp only [List.length_drop, List.length_cons] at this
          simp only [List.length_cons]
          omega
      | none =>
        rw [hpr] at hab
        have := ih rest (p + 1) ab hab
        simp only [List.length_cons]
        omega

theorem allVarMatches_ok (text : Str) :
    ∀ m ∈ allVarMatches text, m.start ≤ m.stop ∧ m.stop ≤ text.length ∧
      m.value = slice text m.start m.stop := by
  intro m hm
  unfold allVarMatches at hm
  rw [List.mem_map] at hm
  obtain ⟨loc, hloc, hrfl⟩ := hm
  have hb : loc.1 ≤ loc.2 ∧ loc.2 ≤ 0 + text.length := by
    simp only [List.mem_append] at hloc
    unfold findAllMatches at hloc
    rcases hloc with ((h | h) | h) | h
    · exact findAllLoop_bounds _ (fun s len hh => probeDollar_bound s len hh) _ _ _ _ h
    · exact findAllLoop_bounds _ (fun s len hh => probeBraceNum_bound s len hh) _ _ _ _ h
    · exact findAllLoop_bounds _ (fun s len hh => probePercent_bound s len hh) _ _ _ _ h
    · exact findAllLoop_bounds _ (fun s len hh => probePercentPercent_bound s len hh) _ _ _ _ h
  subst hrfl
  exact ⟨hb.1, by simpa using hb.2, rfl⟩

theorem insertVM_mem : ∀ (l : List VarMatch) (key m : VarMatch),
    m ∈ insertVM key l → m = key ∨ m ∈ l := by
  intro l
  induction l with
  | nil =>
    intro key m hm
    simp only [insertVM, List.mem_singleton] at hm
    exact Or.inl hm
  | cons x rest ih =>
    intro key m hm
    simp only [insertVM] at hm
    split at hm
    · rcases List.mem_cons.mp hm with h | h
      · exact Or.inl h
      · exact Or.inr h
    · rcases List.mem_cons.mp hm with h | h
      · exact Or.inr (h ▸ List.mem_cons_self x rest)
      · rcases ih key m h with h' | h'
        · exact Or.inl h'
        · exact Or.inr (List.mem_cons_of_mem x h')

theorem sortVarMatches_mem : ∀ (ms : List VarMatch) (m : VarMatch),
    m ∈ sortVarMatches ms → m ∈ ms := by
  have haux : ∀ (ms acc : List VarMatch) (m : VarMatch),
      m ∈ ms.foldl (fun acc key => insertVM key acc) acc → m ∈ acc ∨ m ∈ ms := by
    intro ms
    induction ms with
    | nil => intro acc m hm; exact Or.inl hm
    | cons k rest ih =>
      intro acc m hm
      simp only [List.foldl_cons] at hm
      rcases ih (insertVM k acc) m hm with h | h
      · rcases insertVM_mem acc k m h with h' | h'
        · exact Or.inr (h' ▸ List.mem_cons_self k rest)
        · exact Or.inl h'
      · exact Or.inr (List.mem_cons_of_mem k h)
  intro ms m hm
  rcases haux ms [] m hm with h | h
  · simp at h
  · exact h

theorem filterOverlaps_mem : ∀ (l : List VarMatch) (le : Int) (m : VarMatch),
    m ∈ filterOverlaps le l → m ∈ l := by
  intro l
  induction l with
  | nil => intro le m hm; simp [filterOverlaps] at hm
  | cons x rest ih =>
    intro le m hm
    simp only [filterOverlaps] at hm
    split at hm
    · rcases List.mem_cons.mp hm with h | h
      · exact h ▸ List.mem_cons_self x rest
      · exact List.mem_cons_of_mem x (ih _ m h)
    · exact List.mem_cons_of_mem x (ih _ m hm)

theorem filterOverlaps_chain : ∀ (l : List VarMatch) (le : Int),
    List.Chain' (fun a b => a.stop ≤ b.start) (filterOverlaps le l) ∧
    (∀ m ∈ (filterOverlaps le l).head?, le ≤ (m.start : Int)) := by
  intro l
  induction l with
  | nil => intro le; simp [filterOverlaps]
  | cons x rest ih =>
    intro le
    simp only [filterOverlaps]
    split
    · rename_i hle
      constructor
      · rw [List.chain'_cons']
        refine ⟨?_, (ih (x.stop : Int)).1⟩
        intro b hb
        have hlb := (ih (x.stop : Int)).2 b hb
        exact_mod_cast hlb
      · intro m hm
        simp only [Option.mem_def, Option.some.injEq, List.head?_cons] at hm
        subst hm
        exact hle
    · exact ih le

theorem enumFromIdx_mem : ∀ (l : List VarMatch) (i : Nat) (im : Nat × VarMatch),
    im ∈ enumFromIdx i l → im.2 ∈ l := by
  intro l
  induction l with
  | nil => intro i im him; simp [enumFromIdx] at him
  | cons x rest ih =>
    intro i im him
    simp only [enumFromIdx] at him
    rcases List.mem_cons.mp him with h | h
    · subst h; exact List.mem_cons_self x rest
    · exact List.mem_cons_of_mem x (ih (i + 1) im h)

theorem enumFromIdx_chain : ∀ (l : List VarMatch) (i : Nat),
    List.Chain' (fun a b => a.stop ≤ b.start) l →
    List.Chain' (fun (a b : Nat × VarMatch) => a.2.stop ≤ b.2.start) (enumFromIdx i l) := by
  intro l
  induction l with
  | nil => intro i _; simp [enumFromIdx]
  | cons x rest ih =>
    intro i hch
    rw [List.chain'_cons'] at hch
    simp only [enumFromIdx]
    rw [List.chain'_cons']
    refine ⟨?_, ih (i + 1) hch.2⟩
    intro b hb
    cases rest with
    | nil => simp [enumFromIdx] at hb
    | cons y rest' =>
      simp only [enumFromIdx, List.head?_cons, Option.mem_def, Option.some.injEq] at hb
      subst hb
      exact hch.1 y (by simp)

theorem protectSplice_interleave (text : Str) :
    ∀ (enum : List (Nat × VarMatch)), MatchesOK text enum →
      protectSplice text enum = interleaveFrom text 0 enum := by
  intro enum
  induction enum with
  | nil => intro _; simp [protectSplice, interleaveFrom]
  | cons im rest ih =>
    intro hok
    have hmem := hok.1 im (List.mem_cons_self _ _)
    obtain ⟨hse, hel, _⟩ := hmem
    have hok' : MatchesOK text rest :=
      ⟨fun x hx => hok.1 x (List.mem_cons_of_mem _ hx), (List.chain'_cons'.mp hok.2).2⟩
    have hstep : protectSplice text (im :: rest) = spliceMatch (protectSplice text rest) im := rfl
    rw [hstep, ih hok']
    cases rest with
    | nil =>
      simp only [interleaveFrom, spliceMatch, List.drop_zero]
    | cons jm rest' =>
      have hj : im.2.stop ≤ jm.2.start := by
        have := (List.chain'_cons'.mp hok.2).1 jm (by simp)
        exact this
      have hjmem := hok.1 jm (List.mem_cons_of_mem _ (List.mem_cons_self _ _))
      have hjlen : jm.2.start ≤ text.length := by
        have hch2 := hjmem.2.1
        have hch1 := hjmem.1
        omega
      have htk : (text.take jm.2.start).length = jm.2.start := by
        rw [List.length_take]
        omega
      have h1' : im.2.start ≤ (text.take jm.2.start).length := by omega
      have h2' : im.2.stop ≤ (text.take jm.2.start).length := by omega
      have h1 : im.2.start ≤ (text.take jm.2.start ++ phStr jm.1).length := by
        simp only [List.length_append]; omega
      have h2 : im.2.stop ≤ (text.take jm.2.start ++ phStr jm.1).length := by
        simp only [List.length_append]; omega
      simp only [interleaveFrom, spliceMatch, List.drop_zero]
      rw [List.take_append_of_le_length h1, List.take_append_of_le_length h1',
          List.drop_append_of_le_length h2, List.drop_append_of_le_length h2',
          List.take_take, min_eq_left (by omega : im.2.start ≤ jm.2.start)]

theorem isPrefixOfIff : ∀ (l₁ l₂ : Str), l₁.isPrefixOf l₂ = true ↔ l₁ <+: l₂ := by
  intro l₁
  induction l₁ with
  | nil =>
    intro l₂
    constructor
    · intro _; exact ⟨l₂, rfl⟩
    · intro _; cases l₂ <;> rfl
  | cons c cs ih =>
    intro l₂
    cases l₂ with
    | nil =>
      constructor
      · intro h; exact absurd h (by simp [List.isPrefixOf])
      · intro h
        obtain ⟨t, ht⟩ := h
        exact absurd ht (by simp)
    | cons d ds =>
      simp only [List.isPrefixOf, Bool.and_eq_true, beq_iff_eq, ih ds, List.cons_prefix_cons]

theorem replaceOnce_of_pre (old new s : Str) (h : old <+: s) :
    replaceOnce old new s = new ++ s.drop old.length := by
  cases s with
  | nil =>
    simp only [replaceOnce]
    rw [if_pos ((isPrefixOfIff old []).mpr h)]
  | cons c rest =>
    simp only [replaceOnce]
    rw [if_pos ((isPrefixOfIff old (c :: rest)).mpr h)]

theorem replaceOnce_at_junction (old new : Str) :
    ∀ (pre suf : Str),
      (∀ j, j < pre.length → ¬ old <+: ((pre ++ (old ++ suf)).drop j)) →
      replaceOnce old new (pre ++ (old ++ suf)) = pre ++ (new ++ suf) := by
  intro pre
  induction pre with
  | nil =>
    intro suf _
    simp only [List.nil_append]
    rw [replaceOnce_of_pre old new (old ++ suf) ⟨suf, rfl⟩]
    rw [List.drop_left]
  | cons c rest ih =>
    intro suf h
    have h0 : ¬ old <+: (c :: (rest ++ (old ++ suf))) := by
      have := h 0 (by simp)
      simpa using this
    have hb : old.isPrefixOf (c :: (rest ++ (old ++ suf))) = false := by
      rw [Bool.eq_false_iff]
      intro hc
      exact h0 ((isPrefixOfIff _ _).mp hc)
    rw [List.cons_append]
    simp only [replaceOnce]
    rw [hb]
    simp only [Bool.false_eq_true, if_false]
    have hrec := ih suf (fun j hj => by
      have := h (j + 1) (by simp only [List.length_cons]; omega)
      simpa using this)
    rw [hrec, List.cons_append]

theorem prefixTakeOfAppend {P L1 L2 : Str} (h : P <+: L1 ++ L2) (hl : P.length ≤ L1.length) :
    P <+: L1 := by
  obtain ⟨t, ht⟩ := h
  have hP : P = (L1 ++ L2).take P.length := by
    rw [← ht, List.take_left]
  rw [List.take_append_of_le_length hl] at hP
  refine ⟨L1.drop P.length, ?_⟩
  nth_rewrite 1 [hP]
  exact List.take_append_drop _ _

theorem dropPrefixOfAppend {P L1 L2 : Str} (h : P <+: L1 ++ L2) (hl : L1.length ≤ P.length) :
    P.drop L1.length <+: L2 := by
  obtain ⟨t, ht⟩ := h
  refine ⟨t, ?_⟩
  have hdrop := congrArg (List.drop L1.length) ht
  rw [List.drop_append_of_le_length hl, List.drop_left] at hdrop
  exact hdrop

theorem phStrLen (n : Nat) : 8 ≤ (phStr n).length := by
  simp only [phStr, List.length_cons, List.length_append]
  omega

theorem phStrTake6 (n : Nat) : (phStr n).take 6 = varOpen := rfl

theorem varOpenInside (text : Str) (s j : Nat) (h : varOpen <+: ((text.take s).drop j)) :
    varOpen <:+: text := by
  obtain ⟨t1, ht1⟩ := h
  refine ⟨(text.take s).take j, t1 ++ text.drop s, ?_⟩
  have hassoc : (text.take s).take j ++ varOpen ++ (t1 ++ text.drop s) =
      ((text.take s).take j ++ (varOpen ++ t1)) ++ text.drop s := by
    simp [List.append_assoc]
  rw [hassoc, ht1, List.take_append_drop, List.take_append_drop]

theorem no_early_ph (text B : Str) (n : Nat) (hinf : ¬ varOpen <:+: text) (s : Nat) :
    ∀ j, j < (text.take s).length → ¬ (phStr n) <+: ((text.take s ++ (phStr n ++ B)).drop j) := by
  intro j hj hpre
  rw [List.drop_append_of_le_length (Nat.le_of_lt hj)] at hpre
  have hdlen : ((text.take s).drop j).length = (text.take s).length - j := by
    simp [List.length_drop]
  by_cases hd6 : 6 ≤ ((text.take s).drop j).length
  · have hp6 : (phStr n).take 6 <+: (text.take s).drop j := by
      refine prefixTakeOfAppend (List.IsPrefix.trans ⟨(phStr n).drop 6, List.take_append_drop 6 _⟩ hpre) ?_
      rw [List.length_take]
      have := phStrLen n
      omega
    rw [phStrTake6] at hp6
    exact hinf (varOpenInside text s j hp6)
  · have hls : ((text.take s).drop j).length ≤ (phStr n).length := by
      have := phStrLen n
      omega
    have hdp := dropPrefixOfAppend hpre hls
    have hd1 : 1 ≤ ((text.take s).drop j).length := by omega
    have e1 : (phStr n).drop 1 =
        '\x7b' :: 'v' :: 'a' :: 'r' :: '_' :: ((Nat.repr n).data ++ ['\x7d', '\x7d']) := rfl
    have e2 : (phStr n).drop 2 =
        'v' :: 'a' :: 'r' :: '_' :: ((Nat.repr n).data ++ ['\x7d', '\x7d']) := rfl
    have e3 : (phStr n).drop 3 =
        'a' :: 'r' :: '_' :: ((Nat.repr n).data ++ ['\x7d', '\x7d']) := rfl
    have e4 : (phStr n).drop 4 =
        'r' :: '_' :: ((Nat.repr n).data ++ ['\x7d', '\x7d']) := rfl
    have e5 : (phStr n).drop 5 =
        '_' :: ((Nat.repr n).data ++ ['\x7d', '\x7d']) := rfl
    have hphB : phStr n ++ B =
        '\x7b' :: '\x7b' :: 'v' :: 'a' :: 'r' :: '_' :: (((Nat.repr n).data ++ ['\x7d', '\x7d']) ++ B) := by
      simp [phStr]
    rw [hphB] at hdp
    have h5 : ((text.take s).drop j).length = 1 ∨ ((text.take s).drop j).length = 2 ∨
        ((text.take s).drop j).length = 3 ∨ ((text.take s).drop j).length = 4 ∨
        ((text.take s).drop j).length = 5 := by omega
    rcases h5 with h | h | h | h | h
    · rw [h, e1] at hdp
      rw [List.cons_prefix_cons] at hdp
      rw [List.cons_prefix_cons] at hdp
      exact absurd hdp.2.1 (by decide)
    · rw [h, e2] at hdp
      rw [List.cons_prefix_cons] at hdp
      exact absurd hdp.1 (by decide)
    · rw [h, e3] at hdp
      rw [List.cons_prefix_cons] at hdp
      exact absurd hdp.1 (by decide)
    · rw [h, e4] at hdp
      rw [List.cons_prefix_cons] at hdp
      exact absurd hdp.1 (by decide)
    · rw [h, e5] at hdp
      rw [List.cons_prefix_cons] at hdp
      exact absurd hdp.1 (by decide)

theorem take_glue (text : Str) {a b : Nat} (hab : a ≤ b) :
    text.take a ++ (text.take b).drop a = text.take b := by
  conv_lhs =>
    rw [show text.take a = (text.take b).take a from by rw [List.take_take, min_eq_left hab]]
  exact List.take_append_drop a _

theorem Restore_nil (X : Str) : Restore X [] = X := rfl

theorem Restore_cons' (X o p : Str) (i : Nat) (ms : List Mapping) :
    Restore X (⟨o, p, i⟩ :: ms) = Restore (replaceOnce p o X) ms := rfl

theorem restore_interleave (text : Str) (hinf : ¬ varOpen <:+: text) :
    ∀ (enum : List (Nat × VarMatch)) (pos : Nat),
      MatchesOK text enum → (∀ im ∈ enum.head?, pos ≤ im.2.start) →
      Restore (text.take pos ++ interleaveFrom text pos enum)
        (enum.map (fun im => (⟨im.2.value, phStr im.1, im.1⟩ : Mapping))) = text := by
  intro enum
  induction enum with
  | nil =>
    intro pos _ _
    simp only [interleaveFrom, List.map_nil, Restore_nil]
    exact List.take_append_drop pos text
  | cons im rest ih =>
    intro pos hok hpos
    obtain ⟨hse, hel, hval⟩ := hok.1 im (List.mem_cons_self _ _)
    have hps : pos ≤ im.2.start := hpos im (by simp)
    have hchm := List.chain'_cons'.mp hok.2
    have hok' : MatchesOK text rest :=
      ⟨fun x hx => hok.1 x (List.mem_cons_of_mem _ hx), hchm.2⟩
    have hA : text.take pos ++ interleaveFrom text pos (im :: rest) =
        text.take im.2.start ++ (phStr im.1 ++ interleaveFrom text im.2.stop rest) := by
      simp only [interleaveFrom, ← List.append_assoc]
      rw [take_glue text hps]
    rw [hA, List.map_cons, Restore_cons']
    rw [replaceOnce_at_junction (phStr im.1) im.2.value (text.take im.2.start)
      (interleaveFrom text im.2.stop rest)
      (no_early_ph text (interleaveFrom text im.2.stop rest) im.1 hinf im.2.start)]
    have hBC : text.take im.2.start ++ (im.2.value ++ interleaveFrom text im.2.stop rest) =
        text.take im.2.stop ++ interleaveFrom text im.2.stop rest := by
      rw [hval]
      unfold slice
      simp only [← List.append_assoc]
      rw [take_glue text hse]
    rw [hBC]
    exact ih im.2.stop hok' (fun b hb => hchm.1 b hb)

/-- C1: for every string free of the literal substring `\x7b\x7bvar_`,
restoring the protected string with the returned mappings yields exactly
the original text — placeholder protection round-trips. -/
theorem c1_protect_restore_roundtrip (text : Str) (hinf : ¬ varOpen <:+: text) :
    Restore (Protect text).1 (Protect text).2 = text := by
  unfold Protect
  dsimp only
  by_cases hall : allVarMatches text = []
  · rw [if_pos hall]
    rfl
  · rw [if_neg hall]
    have hsub : ∀ m ∈ filterOverlaps (-1) (sortVarMatches (allVarMatches text)),
        m.start ≤ m.stop ∧ m.stop ≤ text.length ∧ m.value = slice text m.start m.stop := by
      intro m hm
      exact allVarMatches_ok text m (sortVarMatches_mem _ m (filterOverlaps_mem _ _ m hm))
    have hchain := (filterOverlaps_chain (sortVarMatches (allVarMatches text)) (-1)).1
    have hok : MatchesOK text (enumFromIdx 1 (filterOverlaps (-1) (sortVarMatches (allVarMatches text)))) := by
      constructor
      · intro im him
        exact hsub im.2 (enumFromIdx_mem _ _ _ him)
      · exact enumFromIdx_chain _ 1 hchain
    rw [protectSplice_interleave text _ hok]
    have hres := restore_interleave text hinf
      (enumFromIdx 1 (filterOverlaps (-1) (sortVarMatches (allVarMatches text)))) 0 hok
      (fun im _ => Nat.zero_le _)
    simpa using hres

/-- Witness for C1 at a concrete game string. -/
theorem c1_protect_restore_witness :
    (¬ varOpen <:+: "获得%d金币".data) ∧
    Restore (Protect "获得%d金币".data).1 (Protect "获得%d金币".data).2 = "获得%d金币".data :=
  ⟨by decide, c1_protect_restore_roundtrip "获得%d金币".data (by decide)⟩

end RagT
